import Mathlib

/-!
Verification of the coverage-driven test-selection engine of the
`testredundancy` repository against its natural-language specification.

The Go sources are shallowly embedded:
- Go strings are modelled as `List Char` (one element per rune; every byte
  the code inspects is ASCII, so the rune-level view is faithful);
- Go maps are modelled as association lists with unique keys, or as total
  functions where the code only ever reads entries it has initialised;
- `float64` coverage percentages are modelled as rationals: the selection
  algorithm only copies and compares them, never does arithmetic on them,
  so any linearly ordered field is a faithful model of the non-NaN floats;
- Go `int` values are modelled as `Int`; `strconv.Atoi` is modelled with
  its 64-bit saturation behaviour where it matters.
-/

namespace TestRedundancy

/-! ## internal/exec/exec.go -/

/-- The replacement pairs of the `strings.NewReplacer` call in `Sanitize`
(`internal/exec/exec.go`): each of these characters is replaced by an
underscore. -/
def problematicChars : List Char := ['/', '\\', ':', '.']

/-- `Sanitize` from `internal/exec/exec.go`.  The Go code applies a
`strings.NewReplacer` whose patterns are the four single ASCII characters in
`problematicChars`, each replaced by `'_'`.  Since every pattern is a single
byte below 0x80, the replacer acts as a character-wise map on the string. -/
def Sanitize (s : List Char) : List Char :=
  s.map fun c => if c ∈ problematicChars then '_' else c

/-! ## Theorems for claim C10 -/

/-- C10: for every input string `s`, `Sanitize s` has the same length as `s`,
contains none of the characters `/`, `\`, `:`, `.`, and maps each position of
`s` in place: a problematic character becomes `'_'`, every other character is
unchanged. -/
theorem sanitize_length_chars_in_place (s : List Char) :
    (Sanitize s).length = s.length ∧
    (∀ c ∈ Sanitize s, c ∉ problematicChars) ∧
    (∀ i : Nat, (Sanitize s)[i]? =
      (s[i]?).map (fun c => if c ∈ problematicChars then '_' else c)) := by
  refine ⟨List.length_map _ _, ?_, ?_⟩
  · intro c hc
    rcases List.mem_map.mp hc with ⟨a, _, rfl⟩
    by_cases h : a ∈ problematicChars
    · rw [if_pos h]; decide
    · rw [if_neg h]; exact h
  · intro i
    simp [Sanitize]

/-! ## internal/coverage/coverage.go — the coverage record model

`strings.Split` with a one-character separator and `strings.Fields` are
modelled by one splitting function over `List Char`. -/

/-- Go `unicode.IsSpace`: the White_Space code points recognised by the Go
standard library. -/
def goIsSpace (c : Char) : Bool :=
  decide ((9 ≤ c.toNat ∧ c.toNat ≤ 13) ∨ c.toNat = 32 ∨ c.toNat = 0x85 ∨
    c.toNat = 0xA0 ∨ c.toNat = 0x1680 ∨ (0x2000 ≤ c.toNat ∧ c.toNat ≤ 0x200A) ∨
    c.toNat = 0x2028 ∨ c.toNat = 0x2029 ∨ c.toNat = 0x202F ∨
    c.toNat = 0x205F ∨ c.toNat = 0x3000)

/-- Splits a string at every character satisfying `p`, keeping empty pieces:
`splitOnPred (fun c => c = ':') "a::b"` gives `["a", "", "b"]` and the empty
string gives `[""]`, matching Go `strings.Split` for a one-character
separator. -/
def splitOnPred (p : Char → Bool) : List Char → List (List Char)
  | [] => [[]]
  | c :: rest =>
    let r := splitOnPred p rest
    if p c then [] :: r else (c :: r.headD []) :: r.tail

/-- Go `strings.Split(s, sep)` for a single-character separator `sep`. -/
def goSplit (sep : Char) (s : List Char) : List (List Char) :=
  splitOnPred (fun c => c = sep) s

/-- Go `strings.Fields`: the maximal runs of non-whitespace characters, in
order.  Splitting at every whitespace character and dropping the empty pieces
is exactly that. -/
def fields (s : List Char) : List (List Char) :=
  (splitOnPred goIsSpace s).filter (fun f => !f.isEmpty)

/-- The characters `'0'`–`'9'`. -/
def isDigitChar (c : Char) : Bool := decide (48 ≤ c.toNat ∧ c.toNat ≤ 57)

/-- Whether every character of `s` is a decimal digit. -/
def allDigits (s : List Char) : Bool := s.all isDigitChar

/-- The numeric value of a string of decimal digits, most significant first
(the accumulation loop of Go `strconv.ParseUint`, without the cutoff). -/
def digitsVal (ds : List Char) : Nat :=
  ds.foldl (fun a c => 10 * a + (c.toNat - 48)) 0

/-- The largest Go `int` (64-bit). -/
def maxInt64 : Nat := 2 ^ 63 - 1

/-- Whether Go `strconv.Atoi` accepts the syntax of `s`: an optional single
sign followed by a non-empty run of decimal digits.  (On any other input
`Atoi` reports a syntax error and returns 0; on syntactically valid but
out-of-range input it reports a range error and returns the clamped value.) -/
def intSyntaxOk (s : List Char) : Bool :=
  match s with
  | [] => false
  | c :: rest =>
    let ds := if c = '-' ∨ c = '+' then rest else s
    !ds.isEmpty && allDigits ds

/-- The value Go `strconv.Atoi(s)` returns when its error is discarded, as
the coverage parser does (`n, _ := strconv.Atoi(...)`): 0 on a syntax error,
the value clamped to the `int64` range on a range error, the parsed value
otherwise. -/
def goAtoi (s : List Char) : Int :=
  match s with
  | [] => 0
  | c :: rest =>
    let neg : Bool := c = '-'
    let ds := if c = '-' ∨ c = '+' then rest else s
    if ds.isEmpty || !allDigits ds then 0
    else
      let v := digitsVal ds
      if neg then
        if 2 ^ 63 < v then -(2 ^ 63 : Int) else -(v : Int)
      else
        if maxInt64 < v then (maxInt64 : Int) else (v : Int)

/-- `Block` from `internal/coverage/coverage.go`: one record of a Go coverage
profile. -/
structure Block where
  File : List Char
  StartLine : Int
  StartCol : Int
  EndLine : Int
  EndCol : Int
  Statements : Int
  Count : Int
deriving DecidableEq, Repr

/-- `ParseBlockID` from `internal/coverage/coverage.go` (the copy in the
unnamed source part is identical): splits an ID such as `file.go:10.5,20.10`
on `:`, then the range on `,`, then each position on `.`, failing (`none`)
whenever a split does not give exactly two parts; the Go length-2 checks are
rendered as the two-element list patterns.  The numeric parts go through
`strconv.Atoi` with the error discarded. -/
def ParseBlockID (blockID : List Char) :
    Option (List Char × Int × Int × Int × Int) :=
  match goSplit ':' blockID with
  | [file, range] =>
    match goSplit ',' range with
    | [startPos, endPos] =>
      match goSplit '.' startPos, goSplit '.' endPos with
      | [sl, sc], [el, ec] =>
        some (file, goAtoi sl, goAtoi sc, goAtoi el, goAtoi ec)
      | _, _ => none
    | _ => none
  | _ => none

/-- `ParseBlock` from `internal/coverage/coverage.go` (identical in the
second copy of the package): splits the line into whitespace-separated
fields, requires exactly three, parses the first as a block ID and the other
two as integers with the `Atoi` error discarded. -/
def ParseBlock (line : List Char) : Option Block :=
  match fields line with
  | [blockID, stStr, cntStr] =>
    match ParseBlockID blockID with
    | none => none
    | some (file, startLine, startCol, endLine, endCol) =>
      some ⟨file, startLine, startCol, endLine, endCol, goAtoi stStr, goAtoi cntStr⟩
  | _ => none

/-- Decimal digits of `n`, most significant first, `"0"` for 0 — the digits
that Go `fmt.Sprintf` `%d` prints for a non-negative value. -/
def natChars (n : Nat) : List Char :=
  if n = 0 then ['0'] else ((Nat.digits 10 n).map Nat.digitChar).reverse

/-- What Go `%d` prints for an `int`. -/
def formatInt (n : Int) : List Char :=
  if n < 0 then '-' :: natChars (-n).toNat else natChars n.toNat

/-- `FormatBlock` from the second copy of the coverage package:
`fmt.Sprintf` of `file:startLine.startCol,endLine.endCol statements count`. -/
def FormatBlock (b : Block) : List Char :=
  b.File ++ ':' :: formatInt b.StartLine ++ '.' :: formatInt b.StartCol ++
    ',' :: formatInt b.EndLine ++ '.' :: formatInt b.EndCol ++
    ' ' :: formatInt b.Statements ++ ' ' :: formatInt b.Count

/-! ## Lemmas about splitting and decimal formatting -/

theorem splitOnPred_nil (p : Char → Bool) : splitOnPred p [] = [[]] := rfl

theorem splitOnPred_cons (p : Char → Bool) (c : Char) (rest : List Char) :
    splitOnPred p (c :: rest) =
      if p c then [] :: splitOnPred p rest
      else (c :: (splitOnPred p rest).headD []) :: (splitOnPred p rest).tail := rfl

theorem splitOnPred_ne_nil (p : Char → Bool) (s : List Char) :
    splitOnPred p s ≠ [] := by
  cases s with
  | nil => simp [splitOnPred_nil]
  | cons c rest =>
    rw [splitOnPred_cons]
    by_cases h : p c <;> simp [h]

theorem splitOnPred_append_of_not (p : Char → Bool) (a s : List Char)
    (ha : ∀ c ∈ a, p c = false) :
    splitOnPred p (a ++ s) =
      (a ++ (splitOnPred p s).headD []) :: (splitOnPred p s).tail := by
  induction a with
  | nil =>
    rcases h : splitOnPred p s with _ | ⟨x, xs⟩
    · exact absurd h (splitOnPred_ne_nil p s)
    · simp [h]
  | cons c a ih =>
    have hc : p c = false := ha c (List.mem_cons_self c a)
    have ih' := ih (fun c hc' => ha c (List.mem_cons_of_mem _ hc'))
    rw [List.cons_append, splitOnPred_cons, if_neg (by simp [hc]), ih']
    simp

theorem splitOnPred_append_sep (p : Char → Bool) (a s : List Char) (x : Char)
    (ha : ∀ c ∈ a, p c = false) (hx : p x = true) :
    splitOnPred p (a ++ x :: s) = a :: splitOnPred p s := by
  rw [splitOnPred_append_of_not p a _ ha, splitOnPred_cons, if_pos hx]
  simp

theorem splitOnPred_of_not (p : Char → Bool) (a : List Char)
    (ha : ∀ c ∈ a, p c = false) : splitOnPred p a = [a] := by
  have h := splitOnPred_append_of_not p a [] ha
  rw [List.append_nil] at h
  rw [h, splitOnPred_nil]
  simp

theorem goSplit_append_sep (sep : Char) (a s : List Char)
    (ha : ∀ c ∈ a, c ≠ sep) : goSplit sep (a ++ sep :: s) = a :: goSplit sep s := by
  unfold goSplit
  exact splitOnPred_append_sep _ a s sep
    (fun c hc => by simpa using ha c hc) (by simp)

theorem goSplit_of_not (sep : Char) (a : List Char)
    (ha : ∀ c ∈ a, c ≠ sep) : goSplit sep a = [a] := by
  unfold goSplit
  exact splitOnPred_of_not _ a (fun c hc => by simpa using ha c hc)

theorem fields_three (a b c : List Char)
    (ha : ∀ ch ∈ a, goIsSpace ch = false) (hb : ∀ ch ∈ b, goIsSpace ch = false)
    (hc : ∀ ch ∈ c, goIsSpace ch = false)
    (hna : a ≠ []) (hnb : b ≠ []) (hnc : c ≠ []) :
    fields (a ++ ' ' :: (b ++ ' ' :: c)) = [a, b, c] := by
  unfold fields
  rw [splitOnPred_append_sep _ a _ ' ' ha (by decide),
    splitOnPred_append_sep _ b _ ' ' hb (by decide),
    splitOnPred_of_not _ c hc]
  simp [hna, hnb, hnc]

theorem digitChar_toNat (d : Nat) (h : d < 10) :
    (Nat.digitChar d).toNat = d + 48 := by
  interval_cases d <;> rfl

theorem natChars_ne_nil (n : Nat) : natChars n ≠ [] := by
  unfold natChars
  split
  · simp
  · next h =>
    simp [Nat.digits_ne_nil_iff_ne_zero, h]

theorem natChars_digits (n : Nat) : ∀ c ∈ natChars n, isDigitChar c = true := by
  intro c hc
  unfold natChars at hc
  split at hc
  · simp only [List.mem_singleton] at hc
    subst hc
    decide
  · rw [List.mem_reverse, List.mem_map] at hc
    obtain ⟨d, hd, rfl⟩ := hc
    have hd10 : d < 10 := Nat.digits_lt_base (by norm_num) hd
    simp only [isDigitChar, digitChar_toNat d hd10, decide_eq_true_eq]
    omega

theorem isDigitChar_not_space {c : Char} (h : isDigitChar c = true) :
    goIsSpace c = false := by
  simp only [isDigitChar, decide_eq_true_eq] at h
  simp only [goIsSpace, decide_eq_false_iff_not]
  omega

theorem isDigitChar_ne {c : Char} (h : isDigitChar c = true) :
    c ≠ ':' ∧ c ≠ ',' ∧ c ≠ '.' ∧ c ≠ '-' ∧ c ≠ '+' ∧ c ≠ ' ' := by
  refine ⟨?_, ?_, ?_, ?_, ?_, ?_⟩ <;>
    · rintro rfl
      exact absurd h (by decide)

theorem digitsVal_append_one (xs : List Char) (c : Char) :
    digitsVal (xs ++ [c]) = 10 * digitsVal xs + (c.toNat - 48) := by
  unfold digitsVal
  rw [List.foldl_append]
  rfl

theorem digitsVal_rev_map (L : List Nat) (hL : ∀ d ∈ L, d < 10) :
    digitsVal ((L.map Nat.digitChar).reverse) = Nat.ofDigits 10 L := by
  induction L with
  | nil => rfl
  | cons d L ih =>
    have hd : d < 10 := hL d (List.mem_cons_self d L)
    have ih' := ih (fun d hd' => hL d (List.mem_cons_of_mem _ hd'))
    simp only [List.map_cons, List.reverse_cons]
    rw [digitsVal_append_one, ih', digitChar_toNat d hd, Nat.ofDigits_cons]
    omega

theorem digitsVal_natChars (n : Nat) : digitsVal (natChars n) = n := by
  unfold natChars
  split
  · next h => subst h; rfl
  · rw [digitsVal_rev_map _ (fun d hd => Nat.digits_lt_base (by norm_num) hd),
      Nat.ofDigits_digits]

theorem goAtoi_natChars (n : Nat) (h : n ≤ maxInt64) :
    goAtoi (natChars n) = (n : Int) := by
  rcases hnc : natChars n with _ | ⟨c, rest⟩
  · exact absurd hnc (natChars_ne_nil n)
  · have hdig : isDigitChar c = true := by
      have hh := natChars_digits n
      rw [hnc] at hh
      exact hh c (List.mem_cons_self c rest)
    obtain ⟨_, _, _, hminus, hplus, _⟩ := isDigitChar_ne hdig
    have hall : allDigits (c :: rest) = true := by
      have hh := natChars_digits n
      rw [hnc] at hh
      simpa [allDigits, List.all_eq_true] using hh
    have hval : digitsVal (c :: rest) = n := by
      have hh := digitsVal_natChars n
      rwa [hnc] at hh
    have hlt : ¬ maxInt64 < n := not_lt.mpr h
    unfold goAtoi
    have hds : (if c = '-' ∨ c = '+' then rest else c :: rest) = c :: rest :=
      if_neg (by tauto)
    simp only [hds, List.isEmpty_cons, hall, Bool.not_true, Bool.or_false,
      Bool.false_or]
    rw [if_neg (by simp)]
    rw [hval, if_neg hlt]
    simp [hminus]

theorem goAtoi_of_syntax_err {s : List Char} (h : intSyntaxOk s = false) :
    goAtoi s = 0 := by
  cases s with
  | nil => rfl
  | cons c rest =>
    unfold intSyntaxOk at h
    unfold goAtoi
    simp only at h ⊢
    have hcond : ((if c = '-' ∨ c = '+' then rest else c :: rest).isEmpty
        || !allDigits (if c = '-' ∨ c = '+' then rest else c :: rest)) = true := by
      rcases Bool.and_eq_false_iff.mp h with h' | h'
      · have hie : (if c = '-' ∨ c = '+' then rest else c :: rest).isEmpty = true := by
          cases hh : (if c = '-' ∨ c = '+' then rest else c :: rest).isEmpty
          · rw [hh] at h'
            simp at h'
          · rfl
        simp [hie]
      · simp [h']
    rw [if_pos hcond]

/-! ## Theorems for claim C6 -/

/-- Helper: when `ParseBlockID` succeeds, all four splits were well-shaped. -/
theorem parseBlockID_shapes {blockID file : List Char} {sl sc el ec : Int}
    (h : ParseBlockID blockID = some (file, sl, sc, el, ec)) :
    ∃ range startPos endPos a b a' b',
      goSplit ':' blockID = [file, range] ∧ goSplit ',' range = [startPos, endPos] ∧
      goSplit '.' startPos = [a, b] ∧ goSplit '.' endPos = [a', b'] := by
  unfold ParseBlockID at h
  split at h
  · next f r heq =>
    split at h
    · next sp ep heq2 =>
      split at h
      · next a b a' b' heq3 heq4 =>
        obtain ⟨rfl, rfl, rfl, rfl, rfl⟩ : f = file ∧ goAtoi a = sl ∧ goAtoi b = sc ∧
            goAtoi a' = el ∧ goAtoi b' = ec := by
          simpa using h
        exact ⟨r, sp, ep, a, b, a', b', heq, heq2, heq3, heq4⟩
      · simp at h
    · simp at h
  · simp at h

/-- C6: `ParseBlock line` returns an error exactly when the line fails the
structural conditions of the spec — it does not split into exactly three
whitespace-separated fields, or the first field does not split on `:` into
exactly two parts, or the range part does not split on `,` into exactly two
parts, or the start or end position does not split on `.` into exactly two
parts.  Each "splits into exactly two (or three) parts" is rendered as the
existence of that many pieces; under no other condition (in particular, never
because of the numeric fields) does `ParseBlock` fail. -/
theorem parseBlock_error_iff (line : List Char) :
    ParseBlock line = none ↔
      ¬ ∃ blockID stStr cntStr file range startPos endPos a b a' b',
        fields line = [blockID, stStr, cntStr] ∧
        goSplit ':' blockID = [file, range] ∧
        goSplit ',' range = [startPos, endPos] ∧
        goSplit '.' startPos = [a, b] ∧
        goSplit '.' endPos = [a', b'] := by
  unfold ParseBlock
  split
  · next bid st cnt heq =>
    rcases hpb : ParseBlockID bid with _ | ⟨f, sl, sc, el, ec⟩
    · simp only [true_iff]
      rintro ⟨bid', st', cnt', f, r, sp, ep, a, b, a', b', h1, h2, h3, h4, h5⟩
      rw [heq] at h1
      obtain ⟨rfl, rfl, rfl⟩ : bid' = bid ∧ st' = st ∧ cnt' = cnt := by
        simpa using h1.symm
      have hsome : ParseBlockID bid' = some (f, goAtoi a, goAtoi b, goAtoi a', goAtoi b') := by
        unfold ParseBlockID
        simp [h2, h3, h4, h5]
      rw [hpb] at hsome
      exact Option.noConfusion hsome
    · simp only [reduceCtorEq, false_iff, not_not]
      obtain ⟨r, sp, ep, a, b, a', b', h2, h3, h4, h5⟩ := parseBlockID_shapes hpb
      exact ⟨bid, st, cnt, f, r, sp, ep, a, b, a', b', heq, h2, h3, h4, h5⟩
  · next hne =>
    simp only [true_iff]
    rintro ⟨bid', st', cnt', f, r, sp, ep, a, b, a', b', h1, h2, h3, h4, h5⟩
    exact hne bid' st' cnt' h1

/-! ## Theorems for claim C7 -/

/-- C7: round-trip.  For every well-formed block — file free of whitespace
and of `:`, and all six numeric fields non-negative Go `int` values (hence at
most `maxInt64`) — parsing the formatted line gives back exactly the block. -/
theorem parse_format_roundtrip (b : Block)
    (hfile : ∀ c ∈ b.File, goIsSpace c = false ∧ c ≠ ':')
    (hsl0 : 0 ≤ b.StartLine) (hsl1 : b.StartLine ≤ (maxInt64 : Int))
    (hsc0 : 0 ≤ b.StartCol) (hsc1 : b.StartCol ≤ (maxInt64 : Int))
    (hel0 : 0 ≤ b.EndLine) (hel1 : b.EndLine ≤ (maxInt64 : Int))
    (hec0 : 0 ≤ b.EndCol) (hec1 : b.EndCol ≤ (maxInt64 : Int))
    (hst0 : 0 ≤ b.Statements) (hst1 : b.Statements ≤ (maxInt64 : Int))
    (hcnt0 : 0 ≤ b.Count) (hcnt1 : b.Count ≤ (maxInt64 : Int)) :
    ParseBlock (FormatBlock b) = some b := by
  have fmt_eq : ∀ x : Int, 0 ≤ x → formatInt x = natChars x.toNat := by
    intro x hx
    unfold formatInt
    rw [if_neg (not_lt.mpr hx)]
  have dig_fmt : ∀ x : Int, 0 ≤ x → ∀ c ∈ formatInt x, isDigitChar c = true := by
    intro x hx c hc
    rw [fmt_eq x hx] at hc
    exact natChars_digits _ c hc
  have ne_fmt : ∀ x : Int, 0 ≤ x → formatInt x ≠ [] := by
    intro x hx
    rw [fmt_eq x hx]
    exact natChars_ne_nil _
  have atoi_fmt : ∀ x : Int, 0 ≤ x → x ≤ (maxInt64 : Int) → goAtoi (formatInt x) = x := by
    intro x hx0 hx1
    rw [fmt_eq x hx0, goAtoi_natChars x.toNat (by omega)]
    omega
  have hline : FormatBlock b =
      (b.File ++ ':' :: (formatInt b.StartLine ++ '.' :: (formatInt b.StartCol ++
        ',' :: (formatInt b.EndLine ++ '.' :: formatInt b.EndCol)))) ++
      ' ' :: (formatInt b.Statements ++ ' ' :: formatInt b.Count) := by
    simp [FormatBlock, List.append_assoc]
  have hbid_nospace : ∀ ch ∈ b.File ++ ':' :: (formatInt b.StartLine ++
      '.' :: (formatInt b.StartCol ++ ',' :: (formatInt b.EndLine ++
      '.' :: formatInt b.EndCol))), goIsSpace ch = false := by
    intro ch hch
    simp only [List.mem_append, List.mem_cons] at hch
    rcases hch with h | rfl | h | rfl | h | rfl | h | rfl | h
    · exact (hfile ch h).1
    · decide
    · exact isDigitChar_not_space (dig_fmt _ hsl0 ch h)
    · decide
    · exact isDigitChar_not_space (dig_fmt _ hsc0 ch h)
    · decide
    · exact isDigitChar_not_space (dig_fmt _ hel0 ch h)
    · decide
    · exact isDigitChar_not_space (dig_fmt _ hec0 ch h)
  have hfields : fields (FormatBlock b) =
      [b.File ++ ':' :: (formatInt b.StartLine ++ '.' :: (formatInt b.StartCol ++
        ',' :: (formatInt b.EndLine ++ '.' :: formatInt b.EndCol))),
       formatInt b.Statements, formatInt b.Count] := by
    rw [hline]
    refine fields_three _ _ _ hbid_nospace ?_ ?_ (by simp) (ne_fmt _ hst0) (ne_fmt _ hcnt0)
    · exact fun ch h => isDigitChar_not_space (dig_fmt _ hst0 ch h)
    · exact fun ch h => isDigitChar_not_space (dig_fmt _ hcnt0 ch h)
  have hgs1 : goSplit ':' (b.File ++ ':' :: (formatInt b.StartLine ++
      '.' :: (formatInt b.StartCol ++ ',' :: (formatInt b.EndLine ++
      '.' :: formatInt b.EndCol)))) =
      [b.File, formatInt b.StartLine ++ '.' :: (formatInt b.StartCol ++
        ',' :: (formatInt b.EndLine ++ '.' :: formatInt b.EndCol))] := by
    rw [goSplit_append_sep ':' _ _ (fun c hc => (hfile c hc).2)]
    rw [goSplit_of_not ':' _ ?_]
    intro c hc
    simp only [List.mem_append, List.mem_cons] at hc
    rcases hc with h | rfl | h | rfl | h | rfl | h
    · exact (isDigitChar_ne (dig_fmt _ hsl0 c h)).1
    · decide
    · exact (isDigitChar_ne (dig_fmt _ hsc0 c h)).1
    · decide
    · exact (isDigitChar_ne (dig_fmt _ hel0 c h)).1
    · decide
    · exact (isDigitChar_ne (dig_fmt _ hec0 c h)).1
  have hreassoc : formatInt b.StartLine ++ '.' :: (formatInt b.StartCol ++
      ',' :: (formatInt b.EndLine ++ '.' :: formatInt b.EndCol)) =
      (formatInt b.StartLine ++ '.' :: formatInt b.StartCol) ++
        ',' :: (formatInt b.EndLine ++ '.' :: formatInt b.EndCol) := by
    simp [List.append_assoc]
  have hgs2 : goSplit ',' (formatInt b.StartLine ++ '.' :: (formatInt b.StartCol ++
      ',' :: (formatInt b.EndLine ++ '.' :: formatInt b.EndCol))) =
      [formatInt b.StartLine ++ '.' :: formatInt b.StartCol,
       formatInt b.EndLine ++ '.' :: formatInt b.EndCol] := by
    rw [hreassoc, goSplit_append_sep ',' _ _ ?_, goSplit_of_not ',' _ ?_]
    · intro c hc
      simp only [List.mem_append, List.mem_cons] at hc
      rcases hc with h | rfl | h
      · exact (isDigitChar_ne (dig_fmt _ hel0 c h)).2.1
      · decide
      · exact (isDigitChar_ne (dig_fmt _ hec0 c h)).2.1
    · intro c hc
      simp only [List.mem_append, List.mem_cons] at hc
      rcases hc with h | rfl | h
      · exact (isDigitChar_ne (dig_fmt _ hsl0 c h)).2.1
      · decide
      · exact (isDigitChar_ne (dig_fmt _ hsc0 c h)).2.1
  have hdots : ∀ x y : Int, 0 ≤ x → 0 ≤ y →
      goSplit '.' (formatInt x ++ '.' :: formatInt y) = [formatInt x, formatInt y] := by
    intro x y hx hy
    rw [goSplit_append_sep '.' _ _ (fun c hc => (isDigitChar_ne (dig_fmt _ hx c hc)).2.2.1),
      goSplit_of_not '.' _ (fun c hc => (isDigitChar_ne (dig_fmt _ hy c hc)).2.2.1)]
  have hid : ParseBlockID (b.File ++ ':' :: (formatInt b.StartLine ++
      '.' :: (formatInt b.StartCol ++ ',' :: (formatInt b.EndLine ++
      '.' :: formatInt b.EndCol)))) =
      some (b.File, b.StartLine, b.StartCol, b.EndLine, b.EndCol) := by
    unfold ParseBlockID
    simp only [hgs1, hgs2, hdots _ _ hsl0 hsc0, hdots _ _ hel0 hec0]
    rw [atoi_fmt _ hsl0 hsl1, atoi_fmt _ hsc0 hsc1, atoi_fmt _ hel0 hel1,
      atoi_fmt _ hec0 hec1]
  unfold ParseBlock
  simp only [hfields, hid]
  rw [atoi_fmt _ hst0 hst1, atoi_fmt _ hcnt0 hcnt1]

/-- Witness for C7: a concrete well-formed block round-trips. -/
theorem parse_format_roundtrip_witness :
    ParseBlock (FormatBlock ⟨['f', '.', 'g', 'o'], 10, 5, 20, 12, 3, 1⟩) =
      some ⟨['f', '.', 'g', 'o'], 10, 5, 20, 12, 3, 1⟩ :=
  parse_format_roundtrip ⟨['f', '.', 'g', 'o'], 10, 5, 20, 12, 3, 1⟩
    (by decide) (by decide) (by decide) (by decide) (by decide) (by decide)
    (by decide) (by decide) (by decide) (by decide) (by decide) (by decide)
    (by decide)

/-! ## Theorems for claim C8 -/

/-- C8: on a structurally valid line `ParseBlock` always succeeds, and every
numeric field whose text `strconv.Atoi` rejects as non-numeric silently
becomes 0 in the resulting block. -/
theorem parseBlock_nonnumeric_defaults
    (line bid stStr cntStr f r sp ep a b a' b' : List Char)
    (h1 : fields line = [bid, stStr, cntStr])
    (h2 : goSplit ':' bid = [f, r])
    (h3 : goSplit ',' r = [sp, ep])
    (h4 : goSplit '.' sp = [a, b])
    (h5 : goSplit '.' ep = [a', b']) :
    ∃ blk : Block, ParseBlock line = some blk ∧
      (intSyntaxOk a = false → blk.StartLine = 0) ∧
      (intSyntaxOk b = false → blk.StartCol = 0) ∧
      (intSyntaxOk a' = false → blk.EndLine = 0) ∧
      (intSyntaxOk b' = false → blk.EndCol = 0) ∧
      (intSyntaxOk stStr = false → blk.Statements = 0) ∧
      (intSyntaxOk cntStr = false → blk.Count = 0) := by
  refine ⟨⟨f, goAtoi a, goAtoi b, goAtoi a', goAtoi b', goAtoi stStr, goAtoi cntStr⟩,
    ?_, fun h => goAtoi_of_syntax_err h, fun h => goAtoi_of_syntax_err h,
    fun h => goAtoi_of_syntax_err h, fun h => goAtoi_of_syntax_err h,
    fun h => goAtoi_of_syntax_err h, fun h => goAtoi_of_syntax_err h⟩
  unfold ParseBlock ParseBlockID
  simp [h1, h2, h3, h4, h5]

/-- Witness for C8: the line `f:a.b,c.d x y` is structurally valid, parses
successfully, and every numeric field defaults to 0. -/
theorem parseBlock_nonnumeric_defaults_witness :
    ∃ blk : Block,
      ParseBlock ['f', ':', 'a', '.', 'b', ',', 'c', '.', 'd', ' ', 'x', ' ', 'y'] =
        some blk ∧
      (intSyntaxOk ['a'] = false → blk.StartLine = 0) ∧
      (intSyntaxOk ['b'] = false → blk.StartCol = 0) ∧
      (intSyntaxOk ['c'] = false → blk.EndLine = 0) ∧
      (intSyntaxOk ['d'] = false → blk.EndCol = 0) ∧
      (intSyntaxOk ['x'] = false → blk.Statements = 0) ∧
      (intSyntaxOk ['y'] = false → blk.Count = 0) :=
  parseBlock_nonnumeric_defaults
    ['f', ':', 'a', '.', 'b', ',', 'c', '.', 'd', ' ', 'x', ' ', 'y']
    ['f', ':', 'a', '.', 'b', ',', 'c', '.', 'd'] ['x'] ['y']
    ['f'] ['a', '.', 'b', ',', 'c', '.', 'd'] ['a', '.', 'b'] ['c', '.', 'd']
    ['a'] ['b'] ['c'] ['d']
    (by decide) (by decide) (by decide) (by decide) (by decide)

/-! ## internal/coverage/coverage.go — the BlockSet aggregate

A Go `map[string]BlockInfo` is modelled as an association list whose keys
are unique (`KeysNodup`); map reads are `getBlock`, map assignment is
`setBlock`.  Map iteration order is irrelevant for every operation below
(pointwise updates, sums, counts), so folding over the entry list is a
faithful model. -/

/-- `BlockInfo` from `internal/coverage/coverage.go`: statement count and
coverage status of one block. -/
structure BlockInfo where
  Statements : Int
  Covered : Bool
deriving DecidableEq, Repr

/-- Reading `bs.Blocks[blockID]` with the comma-ok idiom. -/
def getBlock (bs : List (String × BlockInfo)) (k : String) : Option BlockInfo :=
  (bs.find? (fun p => p.1 == k)).map (·.2)

/-- Replaces the first entry whose key is `k` (the only one, for unique
keys) by `(k, v)`; leaves the list unchanged when no key matches. -/
def replaceEntry (k : String) (v : BlockInfo) :
    List (String × BlockInfo) → List (String × BlockInfo)
  | [] => []
  | p :: rest => if p.1 == k then (k, v) :: rest else p :: replaceEntry k v rest

/-- Go map assignment `bs.Blocks[blockID] = v`: overwrite the existing entry
or insert a new one. -/
def setBlock (bs : List (String × BlockInfo)) (k : String) (v : BlockInfo) :
    List (String × BlockInfo) :=
  match getBlock bs k with
  | some _ => replaceEntry k v bs
  | none => bs ++ [(k, v)]

/-- The body of the loop in `BlockSet.Merge`: for one entry of `other`, OR
the covered flags keeping the existing statement count, or insert the entry
as-is. -/
def mergeStep (acc : List (String × BlockInfo)) (kv : String × BlockInfo) :
    List (String × BlockInfo) :=
  match getBlock acc kv.1 with
  | some existing => setBlock acc kv.1 ⟨existing.Statements, existing.Covered || kv.2.Covered⟩
  | none => setBlock acc kv.1 kv.2

/-- `BlockSet.Merge` from `internal/coverage/coverage.go`: fold the loop
body over the entries of `other`. -/
def Merge (bs other : List (String × BlockInfo)) : List (String × BlockInfo) :=
  other.foldl mergeStep bs

/-- Whether `bs` has key `k` marked covered (`false` when absent). -/
def coveredIn (bs : List (String × BlockInfo)) (k : String) : Bool :=
  ((getBlock bs k).map (·.Covered)).getD false

/-- `BlockSet.CoveredStatements`: sum of `Statements` over covered blocks. -/
def CoveredStatements (bs : List (String × BlockInfo)) : Int :=
  bs.foldl (fun count p => if p.2.Covered then count + p.2.Statements else count) 0

/-- `BlockSet.CountNewStatements`: the statements of blocks covered in
`other` but absent from `bs` or not covered there. -/
def CountNewStatements (bs other : List (String × BlockInfo)) : Int :=
  other.foldl
    (fun count p =>
      if p.2.Covered && !coveredIn bs p.1 then count + p.2.Statements else count) 0

/-- A list of entries represents a Go map exactly when its keys are
distinct. -/
def KeysNodup (bs : List (String × BlockInfo)) : Prop :=
  (bs.map (·.1)).Nodup

/-- The (key → covered flag) pairs of an aggregate, as a partial function;
two aggregates are equal "as sets of (key → covered) pairs" exactly when
these functions are equal. -/
def coveredPairs (bs : List (String × BlockInfo)) : String → Option Bool :=
  fun k => (getBlock bs k).map (·.Covered)

/-- Combining an optional existing entry with an entry merged on top of it,
as `mergeStep` stores it. -/
def mergeInfo : Option BlockInfo → BlockInfo → BlockInfo
  | some e, v => ⟨e.Statements, e.Covered || v.Covered⟩
  | none, v => v

/-- Pointwise description of `Merge`: what the merged aggregate holds at one
key, as a function of what the two inputs hold there. -/
def mergeInfoOpt : Option BlockInfo → Option BlockInfo → Option BlockInfo
  | a, some v => some (mergeInfo a v)
  | a, none => a

/-! ## Lookup lemmas for the BlockSet operations -/

theorem getBlock_nil (k : String) : getBlock [] k = none := rfl

theorem getBlock_cons (p : String × BlockInfo) (rest : List (String × BlockInfo))
    (k : String) :
    getBlock (p :: rest) k = if p.1 = k then some p.2 else getBlock rest k := by
  unfold getBlock
  rw [List.find?_cons]
  by_cases h : p.1 = k
  · have hb : (p.1 == k) = true := by simpa using h
    simp [hb, h]
  · have hb : (p.1 == k) = false := by simpa using h
    simp [hb, h]

theorem getBlock_eq_none_iff (bs : List (String × BlockInfo)) (k : String) :
    getBlock bs k = none ↔ k ∉ bs.map (·.1) := by
  induction bs with
  | nil => simp [getBlock_nil]
  | cons p rest ih =>
    rw [getBlock_cons, List.map_cons, List.mem_cons]
    by_cases h : p.1 = k
    · simp [h]
    · rw [if_neg h, ih]
      have h' : ¬ k = p.1 := fun hh => h hh.symm
      simp [h']

theorem getBlock_replaceEntry (bs : List (String × BlockInfo)) (k : String)
    (v : BlockInfo) (k' : String) :
    getBlock (replaceEntry k v bs) k' =
      if k' = k ∧ (getBlock bs k).isSome then some v else getBlock bs k' := by
  induction bs with
  | nil => simp [replaceEntry, getBlock_nil]
  | cons p rest ih =>
    unfold replaceEntry
    by_cases hpk : p.1 = k
    · rw [if_pos (by simpa using hpk)]
      by_cases hk' : k' = k
      · subst hk'
        simp [getBlock_cons, hpk]
      · have h1 : ¬ k = k' := fun hh => hk' hh.symm
        simp [getBlock_cons, hk', h1, hpk]
    · rw [if_neg (by simpa using hpk)]
      by_cases hpk' : p.1 = k'
      · have hk'k : ¬ k' = k := fun hh => hpk (hh ▸ hpk')
        simp [getBlock_cons, hpk', hk'k]
      · simp [getBlock_cons, hpk, hpk', ih]

theorem getBlock_append_single (bs : List (String × BlockInfo)) (k : String)
    (v : BlockInfo) (k' : String) (h : getBlock bs k = none) :
    getBlock (bs ++ [(k, v)]) k' =
      if k' = k then some v else getBlock bs k' := by
  induction bs with
  | nil =>
    simp only [List.nil_append, getBlock_cons, getBlock_nil]
    by_cases hk : k = k'
    · simp [hk]
    · have hk2 : ¬ k' = k := fun hh => hk hh.symm
      simp [hk, hk2]
  | cons p rest ih =>
    rw [getBlock_cons] at h
    by_cases hpk : p.1 = k
    · rw [if_pos hpk] at h
      exact Option.noConfusion h
    · rw [if_neg hpk] at h
      simp only [List.cons_append, getBlock_cons, ih h]
      by_cases hpk' : p.1 = k'
      · have hk'k : ¬ k' = k := fun hh => hpk (hh ▸ hpk')
        simp [hpk', hk'k]
      · simp [hpk']

theorem getBlock_setBlock (bs : List (String × BlockInfo)) (k : String)
    (v : BlockInfo) (k' : String) :
    getBlock (setBlock bs k v) k' = if k' = k then some v else getBlock bs k' := by
  unfold setBlock
  rcases hg : getBlock bs k with _ | e
  · exact getBlock_append_single bs k v k' hg
  · rw [getBlock_replaceEntry]
    by_cases hk : k' = k
    · simp [hk, hg]
    · simp [hk]

theorem getBlock_mergeStep (acc : List (String × BlockInfo))
    (kv : String × BlockInfo) (k' : String) :
    getBlock (mergeStep acc kv) k' =
      if k' = kv.1 then some (mergeInfo (getBlock acc kv.1) kv.2)
      else getBlock acc k' := by
  unfold mergeStep
  rcases hg : getBlock acc kv.1 with _ | e
  · rw [getBlock_setBlock]
    simp [mergeInfo, hg]
  · rw [getBlock_setBlock]
    simp [mergeInfo, hg]

theorem getBlock_merge (A B : List (String × BlockInfo)) (k : String)
    (hB : KeysNodup B) :
    getBlock (Merge A B) k = mergeInfoOpt (getBlock A k) (getBlock B k) := by
  induction B generalizing A with
  | nil => simp [Merge, getBlock_nil, mergeInfoOpt]
  | cons kv rest ih =>
    obtain ⟨hk, hrest⟩ := List.nodup_cons.mp hB
    have hMerge : Merge A (kv :: rest) = Merge (mergeStep A kv) rest := rfl
    rw [hMerge, ih (mergeStep A kv) hrest, getBlock_mergeStep, getBlock_cons]
    by_cases hkk : k = kv.1
    · have hnone : getBlock rest k = none :=
        (getBlock_eq_none_iff rest k).mpr (by rw [hkk]; exact hk)
      rw [if_pos hkk, if_pos hkk.symm, hnone, hkk]
      rcases hA : getBlock A kv.1 with _ | e <;> simp [mergeInfoOpt, mergeInfo, hA]
    · rw [if_neg hkk, if_neg (fun h : kv.1 = k => hkk h.symm)]

/-! ## Theorems for claim C4 -/

/-- C4: merging is idempotent and commutative on the (key → covered) pairs:
merging `B` into `A` twice gives the same covered pairs as merging once, and
`Merge A B` and `Merge B A` have the same covered pairs, for all aggregates
with unique keys (every Go map satisfies `KeysNodup`). -/
theorem merge_idempotent_commutative (A B : List (String × BlockInfo))
    (hA : KeysNodup A) (hB : KeysNodup B) :
    coveredPairs (Merge (Merge A B) B) = coveredPairs (Merge A B) ∧
    coveredPairs (Merge A B) = coveredPairs (Merge B A) := by
  constructor
  · funext k
    unfold coveredPairs
    rw [getBlock_merge _ _ _ hB, getBlock_merge _ _ _ hB]
    rcases hga : getBlock A k with _ | a <;> rcases hgb : getBlock B k with _ | b <;>
      simp [mergeInfoOpt, mergeInfo, Bool.or_assoc]
  · funext k
    unfold coveredPairs
    rw [getBlock_merge _ _ _ hB, getBlock_merge _ _ _ hA]
    rcases hga : getBlock A k with _ | a <;> rcases hgb : getBlock B k with _ | b <;>
      simp [mergeInfoOpt, mergeInfo, Bool.or_comm]

/-- Witness for C4: two concrete aggregates with overlapping keys. -/
theorem merge_idempotent_commutative_witness :
    coveredPairs (Merge (Merge [(("a" : String), BlockInfo.mk 1 true), ("b", ⟨2, false⟩)]
        [(("b" : String), BlockInfo.mk 2 true), ("c", ⟨3, false⟩)])
        [(("b" : String), BlockInfo.mk 2 true), ("c", ⟨3, false⟩)]) =
      coveredPairs (Merge [(("a" : String), BlockInfo.mk 1 true), ("b", ⟨2, false⟩)]
        [(("b" : String), BlockInfo.mk 2 true), ("c", ⟨3, false⟩)]) ∧
    coveredPairs (Merge [(("a" : String), BlockInfo.mk 1 true), ("b", ⟨2, false⟩)]
        [(("b" : String), BlockInfo.mk 2 true), ("c", ⟨3, false⟩)]) =
      coveredPairs (Merge [(("b" : String), BlockInfo.mk 2 true), ("c", ⟨3, false⟩)]
        [(("a" : String), BlockInfo.mk 1 true), ("b", ⟨2, false⟩)]) :=
  merge_idempotent_commutative _ _ (by unfold KeysNodup; decide) (by unfold KeysNodup; decide)

/-! ## Sum lemmas for the statement counters -/

theorem foldl_if_sum {α : Type} (pred : α → Bool) (f : α → Int) (l : List α)
    (init : Int) :
    l.foldl (fun c p => if pred p then c + f p else c) init =
      init + ((l.filter pred).map f).sum := by
  induction l generalizing init with
  | nil => simp
  | cons a l ih =>
    rw [List.foldl_cons, ih]
    cases hp : pred a <;> simp [List.filter_cons, hp] <;> ring

theorem coveredStatements_eq_sum (bs : List (String × BlockInfo)) :
    CoveredStatements bs =
      ((bs.filter (fun p => p.2.Covered)).map (fun p => p.2.Statements)).sum := by
  unfold CoveredStatements
  rw [foldl_if_sum]
  simp

theorem countNewStatements_eq_sum (S C : List (String × BlockInfo)) :
    CountNewStatements S C =
      ((C.filter (fun p => p.2.Covered && !coveredIn S p.1)).map
        (fun p => p.2.Statements)).sum := by
  unfold CountNewStatements
  rw [foldl_if_sum]
  simp

theorem coveredStatements_cons (p : String × BlockInfo)
    (rest : List (String × BlockInfo)) :
    CoveredStatements (p :: rest) =
      (if p.2.Covered then p.2.Statements else 0) + CoveredStatements rest := by
  rw [coveredStatements_eq_sum, coveredStatements_eq_sum, List.filter_cons]
  cases hp : p.2.Covered <;> simp [hp]

theorem countNewStatements_cons (S : List (String × BlockInfo))
    (kv : String × BlockInfo) (rest : List (String × BlockInfo)) :
    CountNewStatements S (kv :: rest) =
      (if kv.2.Covered && !coveredIn S kv.1 then kv.2.Statements else 0) +
        CountNewStatements S rest := by
  rw [countNewStatements_eq_sum, countNewStatements_eq_sum, List.filter_cons]
  cases hp : (kv.2.Covered && !coveredIn S kv.1) <;> simp [hp]

theorem countNewStatements_congr (S S' C : List (String × BlockInfo))
    (h : ∀ p ∈ C, coveredIn S p.1 = coveredIn S' p.1) :
    CountNewStatements S C = CountNewStatements S' C := by
  rw [countNewStatements_eq_sum, countNewStatements_eq_sum,
    List.filter_congr (fun p hp => by rw [h p hp])]

theorem keys_replaceEntry (k : String) (v : BlockInfo)
    (bs : List (String × BlockInfo)) :
    (replaceEntry k v bs).map (·.1) = bs.map (·.1) := by
  induction bs with
  | nil => rfl
  | cons p rest ih =>
    unfold replaceEntry
    by_cases h : p.1 = k
    · rw [if_pos (by simpa using h)]
      simp [h]
    · rw [if_neg (by simpa using h)]
      simp [ih]

theorem getBlock_isSome_mem (bs : List (String × BlockInfo)) (k : String)
    (h : getBlock bs k ≠ none) : k ∈ bs.map (·.1) := by
  by_contra hmem
  exact h ((getBlock_eq_none_iff bs k).mpr hmem)

theorem keysNodup_setBlock (bs : List (String × BlockInfo)) (k : String)
    (v : BlockInfo) (h : KeysNodup bs) : KeysNodup (setBlock bs k v) := by
  unfold setBlock
  rcases hg : getBlock bs k with _ | e
  · have hk : k ∉ bs.map (·.1) := (getBlock_eq_none_iff bs k).mp hg
    unfold KeysNodup at *
    rw [List.map_append]
    simp [List.nodup_append, h, hk]
  · unfold KeysNodup at *
    rw [keys_replaceEntry]
    exact h

theorem keysNodup_mergeStep (acc : List (String × BlockInfo))
    (kv : String × BlockInfo) (h : KeysNodup acc) : KeysNodup (mergeStep acc kv) := by
  unfold mergeStep
  rcases hg : getBlock acc kv.1 with _ | e
  · exact keysNodup_setBlock _ _ _ h
  · exact keysNodup_setBlock _ _ _ h

theorem coveredStatements_replaceEntry (bs : List (String × BlockInfo))
    (k : String) (v e : BlockInfo) (hg : getBlock bs k = some e) :
    CoveredStatements (replaceEntry k v bs) + (if e.Covered then e.Statements else 0) =
      CoveredStatements bs + (if v.Covered then v.Statements else 0) := by
  induction bs with
  | nil => exact absurd hg (by simp [getBlock_nil])
  | cons p rest ih =>
    rw [getBlock_cons] at hg
    unfold replaceEntry
    by_cases hpk : p.1 = k
    · rw [if_pos hpk] at hg
      obtain rfl : p.2 = e := by injection hg
      rw [if_pos (by simpa using hpk)]
      rw [coveredStatements_cons, coveredStatements_cons]
      ring
    · rw [if_neg hpk] at hg
      rw [if_neg (by simpa using hpk)]
      rw [coveredStatements_cons, coveredStatements_cons]
      have hih := ih hg
      omega

theorem coveredStatements_mergeStep (S : List (String × BlockInfo))
    (kv : String × BlockInfo)
    (hsame : ∀ e, getBlock S kv.1 = some e → e.Statements = kv.2.Statements) :
    CoveredStatements (mergeStep S kv) =
      CoveredStatements S +
        (if kv.2.Covered && !coveredIn S kv.1 then kv.2.Statements else 0) := by
  unfold mergeStep
  rcases hg : getBlock S kv.1 with _ | e
  · have hci : coveredIn S kv.1 = false := by
      unfold coveredIn
      rw [hg]
      rfl
    unfold setBlock
    rw [hg, hci]
    rw [coveredStatements_eq_sum, coveredStatements_eq_sum, List.filter_append,
      List.map_append, List.sum_append]
    cases hc : kv.2.Covered <;> simp [List.filter_cons, hc]
  · have hci : coveredIn S kv.1 = e.Covered := by
      unfold coveredIn
      rw [hg]
      rfl
    unfold setBlock
    rw [hg, hci]
    have hrepl := coveredStatements_replaceEntry S kv.1
      ⟨e.Statements, e.Covered || kv.2.Covered⟩ e hg
    have hes := hsame e hg
    cases hec : e.Covered <;> cases hkc : kv.2.Covered <;>
      simp [hec, hkc] at hrepl ⊢ <;> omega

theorem coveredStatements_merge (C : List (String × BlockInfo)) :
    ∀ S : List (String × BlockInfo), KeysNodup C → KeysNodup S →
      (∀ k e c, getBlock S k = some e → getBlock C k = some c →
        e.Statements = c.Statements) →
      CoveredStatements (Merge S C) =
        CoveredStatements S + CountNewStatements S C := by
  induction C with
  | nil =>
    intro S _ _ _
    simp [Merge, CountNewStatements]
  | cons kv rest ih =>
    intro S hC hS hsame
    obtain ⟨hk, hrest⟩ := List.nodup_cons.mp hC
    have hgC : getBlock (kv :: rest) kv.1 = some kv.2 := by
      rw [getBlock_cons, if_pos rfl]
    have hsame1 : ∀ e, getBlock S kv.1 = some e → e.Statements = kv.2.Statements :=
      fun e he => hsame kv.1 e kv.2 he hgC
    have hS' : KeysNodup (mergeStep S kv) := keysNodup_mergeStep S kv hS
    have hk' : kv.1 ∉ rest.map (·.1) := hk
    have hsame' : ∀ k e c, getBlock (mergeStep S kv) k = some e →
        getBlock rest k = some c → e.Statements = c.Statements := by
      intro k e c he hc
      have hkmem : k ∈ rest.map (·.1) :=
        getBlock_isSome_mem rest k (by simp [hc])
      have hkne : k ≠ kv.1 := fun heq => hk' (heq ▸ hkmem)
      rw [getBlock_mergeStep, if_neg hkne] at he
      have hc' : getBlock (kv :: rest) k = some c := by
        rw [getBlock_cons, if_neg (fun h => hkne h.symm)]
        exact hc
      exact hsame k e c he hc'
    have hcongr : CountNewStatements (mergeStep S kv) rest = CountNewStatements S rest := by
      refine (countNewStatements_congr _ _ _ ?_).symm
      intro p hp
      have hpne : p.1 ≠ kv.1 := by
        intro heq
        have hpmem : p.1 ∈ rest.map (·.1) := List.mem_map.mpr ⟨p, hp, rfl⟩
        exact hk' (heq ▸ hpmem)
      unfold coveredIn
      rw [getBlock_mergeStep, if_neg hpne]
    have hMergeCons : Merge S (kv :: rest) = Merge (mergeStep S kv) rest := rfl
    rw [hMergeCons, ih (mergeStep S kv) hrest hS' hsame', hcongr,
      coveredStatements_mergeStep S kv hsame1, countNewStatements_cons]
    ring

/-! ## Theorems for claim C5 -/

/-- Modelled from the spec (§4.2): the statement count the spec ascribes to
`countNewStatements` — the sum of the candidate entries' `Statements` over
the keys covered in the candidate but absent from, or not covered in, self.
(The embedding is purely functional, so the call leaves `S` untouched by
construction.) -/
def specNewStatements (S C : List (String × BlockInfo)) : Int :=
  ((C.filter (fun p => p.2.Covered && !coveredIn S p.1)).map
    (fun p => p.2.Statements)).sum

/-- When a lookup succeeds, some entry of the list carries that key and
value. -/
theorem getBlock_some_mem (bs : List (String × BlockInfo)) (k : String)
    (e : BlockInfo) (h : getBlock bs k = some e) :
    ∃ p ∈ bs, p.1 = k ∧ p.2 = e := by
  unfold getBlock at h
  rcases hf : bs.find? (fun p => p.1 == k) with _ | p
  · rw [hf] at h
    exact Option.noConfusion h
  · rw [hf] at h
    obtain rfl : p.2 = e := by
      simpa using h
    have hmem := List.mem_of_find?_eq_some hf
    have hpred := List.find?_some hf
    exact ⟨p, hmem, by simpa using hpred, rfl⟩

/-- C5: `CountNewStatements S C` is the sum of `Statements` over keys covered
in `C` but absent from or uncovered in `S`; and when every key present in
both carries the same `Statements` value, it equals
`CoveredStatements (Merge S C) - CoveredStatements S`. -/
theorem countNewStatements_spec (S C : List (String × BlockInfo))
    (hS : KeysNodup S) (hC : KeysNodup C)
    (hsame : ∀ p ∈ S, ∀ q ∈ C, p.1 = q.1 → p.2.Statements = q.2.Statements) :
    CountNewStatements S C = specNewStatements S C ∧
    CountNewStatements S C =
      CoveredStatements (Merge S C) - CoveredStatements S := by
  have hsame' : ∀ k e c, getBlock S k = some e → getBlock C k = some c →
      e.Statements = c.Statements := by
    intro k e c he hc
    obtain ⟨p, hp, hpk, rfl⟩ := getBlock_some_mem S k e he
    obtain ⟨q, hq, hqk, rfl⟩ := getBlock_some_mem C k c hc
    exact hsame p hp q hq (hpk.trans hqk.symm)
  refine ⟨countNewStatements_eq_sum S C, ?_⟩
  rw [coveredStatements_merge C S hC hS hsame']
  ring

/-- Witness for C5: concrete aggregates sharing the key `b` with equal
statement counts. -/
theorem countNewStatements_spec_witness :
    CountNewStatements [(("a" : String), BlockInfo.mk 5 true), ("b", ⟨7, false⟩)]
        [(("b" : String), BlockInfo.mk 7 true), ("d", ⟨2, true⟩), ("e", ⟨9, false⟩)] =
      specNewStatements [(("a" : String), BlockInfo.mk 5 true), ("b", ⟨7, false⟩)]
        [(("b" : String), BlockInfo.mk 7 true), ("d", ⟨2, true⟩), ("e", ⟨9, false⟩)] ∧
    CountNewStatements [(("a" : String), BlockInfo.mk 5 true), ("b", ⟨7, false⟩)]
        [(("b" : String), BlockInfo.mk 7 true), ("d", ⟨2, true⟩), ("e", ⟨9, false⟩)] =
      CoveredStatements (Merge [(("a" : String), BlockInfo.mk 5 true), ("b", ⟨7, false⟩)]
          [(("b" : String), BlockInfo.mk 7 true), ("d", ⟨2, true⟩), ("e", ⟨9, false⟩)]) -
        CoveredStatements [(("a" : String), BlockInfo.mk 5 true), ("b", ⟨7, false⟩)] :=
  countNewStatements_spec _ _ (by unfold KeysNodup; decide) (by unfold KeysNodup; decide)
    (by decide)

/-! ## internal/analysis/analysis.go — the greedy selector

Go maps: `map[string]float64` is an association list with unique keys read
through `lookupCov`; `map[string]bool` valued reads (`baselineTests`) are a
total `String → Bool` (missing keys read as `false`, the Go zero value);
`targetFunctions` is only ever used through key membership and key
iteration, so it is the list of its keys; `currentCoverage` is a total
`String → Rat` (the code initialises every target key to 0 and only reads
target keys, and a missing float key would read as 0 anyway).  `float64` is
modelled as `Rat`: the algorithm only copies and compares percentages. -/

/-- `TestCoverage` from `internal/analysis/analysis.go`. -/
structure TestCoverage where
  TestName : String
  Coverage : List (String × Rat)
deriving DecidableEq, Repr

/-- `SelectionResult` from `internal/analysis/analysis.go`. -/
structure SelectionResult where
  KeptTests : List String
  RedundantTests : List String
deriving DecidableEq, Repr

/-- Reading `cov[fn]` with the comma-ok idiom. -/
def lookupCov (cov : List (String × Rat)) (fn : String) : Option Rat :=
  (cov.find? (fun p => p.1 == fn)).map (·.2)

/-- The `coverageByTest` map: built by one pass over `allCoverage` with map
assignment, so for duplicate test names the last entry wins. -/
def coverageByTest (allCoverage : List TestCoverage) (name : String) :
    Option (List (String × Rat)) :=
  (allCoverage.reverse.find? (fun tc => tc.TestName == name)).map (·.Coverage)

/-- `mergeCoverage`: raise `currentCoverage` to the test's value on every
target function where the test's value is strictly higher; a test name
absent from `coverageByTest` changes nothing. -/
def mergeCoverage (targetFunctions : List String)
    (covByTest : String → Option (List (String × Rat)))
    (currentCoverage : String → Rat) (testName : String) : String → Rat :=
  match covByTest testName with
  | none => currentCoverage
  | some cov => fun fn =>
    match lookupCov cov fn with
    | some newCov =>
      if targetFunctions.contains fn ∧ currentCoverage fn < newCov then newCov
      else currentCoverage fn
    | none => currentCoverage fn

/-- `updateGaps`: drop every gap whose current coverage reached the
threshold (`>=` in Go, so a gap stays exactly when it is still below). -/
def updateGaps (threshold : Rat) (currentCoverage : String → Rat)
    (gaps : List String) : List String :=
  gaps.filter (fun fn => decide (currentCoverage fn < threshold))

/-- `countGapImprovements`: how many remaining gaps this test would strictly
raise. -/
def countGapImprovements (covByTest : String → Option (List (String × Rat)))
    (gaps : List String) (currentCoverage : String → Rat)
    (testName : String) : Nat :=
  match covByTest testName with
  | none => 0
  | some cov =>
    (gaps.filter (fun fn =>
      match lookupCov cov fn with
      | some newCov => decide (currentCoverage fn < newCov)
      | none => false)).length

/-- The candidate scan of the selection loop: skip already-kept tests, and
replace the running best (`bestTest`, `bestImprovements`) whenever a
candidate's improvement count is strictly greater. -/
def pickBest (cands : List TestCoverage) (kept : List String)
    (score : String → Nat) (init : String × Nat) : String × Nat :=
  cands.foldl
    (fun best tc =>
      if kept.contains tc.TestName then best
      else
        let improvements := score tc.TestName
        if best.2 < improvements then (tc.TestName, improvements) else best)
    init

/-- The `for len(remainingGaps) > 0` loop of `SelectMinimalSet`.  The Go
loop terminates because every committed test is new; the embedding runs on a
fuel counter, and claim C9 shows `allCoverage.length + 1` fuel always
suffices (more fuel never changes the result). -/
def selectLoop (targetFunctions : List String)
    (covByTest : String → Option (List (String × Rat)))
    (baselineList nonBaselineList : List TestCoverage) (threshold : Rat) :
    Nat → (String → Rat) → List String → List String → List String
  | 0, _, _, keptOrder => keptOrder
  | fuel + 1, currentCoverage, gaps, keptOrder =>
    if gaps.isEmpty then keptOrder
    else
      let score := countGapImprovements covByTest gaps currentCoverage
      let b1 := pickBest baselineList keptOrder score ("", 0)
      let b := if b1.2 = 0 then pickBest nonBaselineList keptOrder score ("", 0) else b1
      if b.2 = 0 then keptOrder
      else
        let newCoverage := mergeCoverage targetFunctions covByTest currentCoverage b.1
        selectLoop targetFunctions covByTest baselineList nonBaselineList threshold
          fuel newCoverage (updateGaps threshold newCoverage gaps)
          (keptOrder ++ [b.1])

/-- `SelectMinimalSet` with an explicit fuel bound on the selection loop. -/
def SelectMinimalSetFuel (fuel : Nat) (allCoverage : List TestCoverage)
    (baselineTests : String → Bool) (targetFunctions : List String)
    (threshold : Rat) : SelectionResult :=
  if allCoverage.length = 0 ∨ targetFunctions.length = 0 then ⟨[], []⟩
  else
    let baselineList := allCoverage.filter (fun tc => baselineTests tc.TestName)
    let nonBaselineList := allCoverage.filter (fun tc => !baselineTests tc.TestName)
    let keptOrder := selectLoop targetFunctions (coverageByTest allCoverage)
      baselineList nonBaselineList threshold fuel (fun _ => 0) targetFunctions []
    ⟨keptOrder,
      (allCoverage.filter (fun tc => !keptOrder.contains tc.TestName)).map
        (·.TestName)⟩

/-- `SelectMinimalSet` from `internal/analysis/analysis.go`: the kept tests
in commit order, and every other input test as redundant. -/
def SelectMinimalSet (allCoverage : List TestCoverage)
    (baselineTests : String → Bool) (targetFunctions : List String)
    (threshold : Rat) : SelectionResult :=
  SelectMinimalSetFuel (allCoverage.length + 1) allCoverage baselineTests
    targetFunctions threshold

/-! ## Lemmas about the candidate scan -/

theorem pickBest_mono (cands : List TestCoverage) (kept : List String)
    (score : String → Nat) :
    ∀ init : String × Nat, init.2 ≤ (pickBest cands kept score init).2 := by
  induction cands with
  | nil => intro init; simp [pickBest]
  | cons tc cands ih =>
    intro init
    have hstep : pickBest (tc :: cands) kept score init =
        pickBest cands kept score
          (if kept.contains tc.TestName then init
           else if init.2 < score tc.TestName then (tc.TestName, score tc.TestName)
           else init) := by
      simp [pickBest]
    rw [hstep]
    refine le_trans ?_ (ih _)
    by_cases hk : kept.contains tc.TestName = true
    · rw [if_pos hk]
    · rw [if_neg hk]
      by_cases hlt : init.2 < score tc.TestName
      · rw [if_pos hlt]
        exact le_of_lt hlt
      · rw [if_neg hlt]

theorem pickBest_cases (cands : List TestCoverage) (kept : List String)
    (score : String → Nat) :
    ∀ init : String × Nat,
      pickBest cands kept score init = init ∨
      ∃ tc ∈ cands,
        pickBest cands kept score init = (tc.TestName, score tc.TestName) ∧
        kept.contains tc.TestName = false ∧ init.2 < score tc.TestName := by
  induction cands with
  | nil => intro init; left; simp [pickBest]
  | cons tc cands ih =>
    intro init
    have hstep : pickBest (tc :: cands) kept score init =
        pickBest cands kept score
          (if kept.contains tc.TestName then init
           else if init.2 < score tc.TestName then (tc.TestName, score tc.TestName)
           else init) := by
      simp [pickBest]
    rw [hstep]
    by_cases hk : kept.contains tc.TestName = true
    · rw [if_pos hk]
      rcases ih init with h | ⟨tc', htc', heq, hk', hlt⟩
      · exact Or.inl h
      · exact Or.inr ⟨tc', List.mem_cons_of_mem _ htc', heq, hk', hlt⟩
    · rw [if_neg hk]
      by_cases hlt : init.2 < score tc.TestName
      · rw [if_pos hlt]
        rcases ih (tc.TestName, score tc.TestName) with h | ⟨tc', htc', heq, hk', hlt'⟩
        · right
          exact ⟨tc, List.mem_cons_self tc cands, h, by simpa using hk, hlt⟩
        · right
          refine ⟨tc', List.mem_cons_of_mem _ htc', heq, hk', ?_⟩
          have hlt'' : score tc.TestName < score tc'.TestName := hlt'
          omega
      · rw [if_neg hlt]
        rcases ih init with h | ⟨tc', htc', heq, hk', hlt'⟩
        · exact Or.inl h
        · exact Or.inr ⟨tc', List.mem_cons_of_mem _ htc', heq, hk', hlt'⟩

theorem pickBest_ge_score (kept : List String) (score : String → Nat)
    (tc : TestCoverage) :
    ∀ cands : List TestCoverage, tc ∈ cands →
      kept.contains tc.TestName = false →
      ∀ init : String × Nat, score tc.TestName ≤ (pickBest cands kept score init).2 := by
  intro cands
  induction cands with
  | nil => intro h; cases h
  | cons hd tl ih =>
    intro htc hk init
    have hstep : pickBest (hd :: tl) kept score init =
        pickBest tl kept score
          (if kept.contains hd.TestName then init
           else if init.2 < score hd.TestName then (hd.TestName, score hd.TestName)
           else init) := by
      simp [pickBest]
    rw [hstep]
    rcases List.mem_cons.mp htc with heq | htl
    · subst heq
      refine le_trans ?_ (pickBest_mono tl kept score _)
      rw [if_neg (by rw [hk]; simp)]
      by_cases hlt : init.2 < score tc.TestName
      · rw [if_pos hlt]
      · rw [if_neg hlt]
        omega
    · exact ih htl hk _

/-! ## Lemmas about the selection loop -/

theorem selectLoop_succ (targetFunctions : List String)
    (covByTest : String → Option (List (String × Rat)))
    (baselineList nonBaselineList : List TestCoverage) (threshold : Rat)
    (fuel : Nat) (currentCoverage : String → Rat) (gaps keptOrder : List String) :
    selectLoop targetFunctions covByTest baselineList nonBaselineList threshold
        (fuel + 1) currentCoverage gaps keptOrder =
      if gaps.isEmpty then keptOrder
      else
        let score := countGapImprovements covByTest gaps currentCoverage
        let b1 := pickBest baselineList keptOrder score ("", 0)
        let b := if b1.2 = 0 then pickBest nonBaselineList keptOrder score ("", 0)
          else b1
        if b.2 = 0 then keptOrder
        else
          let newCoverage := mergeCoverage targetFunctions covByTest currentCoverage b.1
          selectLoop targetFunctions covByTest baselineList nonBaselineList threshold
            fuel newCoverage (updateGaps threshold newCoverage gaps)
            (keptOrder ++ [b.1]) := rfl

theorem selectLoop_prefix (targetFunctions : List String)
    (covByTest : String → Option (List (String × Rat)))
    (baselineList nonBaselineList : List TestCoverage) (threshold : Rat) :
    ∀ (fuel : Nat) (currentCoverage : String → Rat) (gaps keptOrder : List String),
      ∃ ext, selectLoop targetFunctions covByTest baselineList nonBaselineList
        threshold fuel currentCoverage gaps keptOrder = keptOrder ++ ext := by
  intro fuel
  induction fuel with
  | zero => intro cur gaps keptOrder; exact ⟨[], by simp [selectLoop]⟩
  | succ fuel ih =>
    intro cur gaps keptOrder
    rw [selectLoop_succ]
    by_cases hgaps : gaps.isEmpty
    · exact ⟨[], by simp [hgaps]⟩
    · rw [if_neg (by simp [hgaps])]
      dsimp only
      set score := countGapImprovements covByTest gaps cur with hscoredef
      set b := if (pickBest baselineList keptOrder score ("", 0)).2 = 0 then
          pickBest nonBaselineList keptOrder score ("", 0)
        else pickBest baselineList keptOrder score ("", 0) with hbdef
      by_cases hb : b.2 = 0
      · exact ⟨[], by rw [if_pos hb]; simp⟩
      · rw [if_neg hb]
        obtain ⟨ext, hext⟩ := ih (mergeCoverage targetFunctions covByTest cur b.1)
          (updateGaps threshold (mergeCoverage targetFunctions covByTest cur b.1) gaps)
          (keptOrder ++ [b.1])
        exact ⟨[b.1] ++ ext, by rw [hext, List.append_assoc]⟩

theorem contains_false_not_mem {l : List String} {a : String}
    (h : l.contains a = false) : a ∉ l := by
  simpa using h

theorem contains_append_strings (l1 l2 : List String) (a : String) :
    (l1 ++ l2).contains a = (l1.contains a || l2.contains a) := by
  induction l1 with
  | nil => simp
  | cons b l ih => simp [List.contains_cons, ih, Bool.or_assoc]

/-- When the selected candidate has a non-zero improvement count, it is a
not-yet-kept test from the baseline or non-baseline list. -/
theorem selectLoop_pick_facts (baselineList nonBaselineList : List TestCoverage)
    (keptOrder : List String) (score : String → Nat) (b : String × Nat)
    (hbdef : b = if (pickBest baselineList keptOrder score ("", 0)).2 = 0 then
        pickBest nonBaselineList keptOrder score ("", 0)
      else pickBest baselineList keptOrder score ("", 0))
    (hb : b.2 ≠ 0) :
    ∃ tc, (tc ∈ baselineList ∨ tc ∈ nonBaselineList) ∧
      tc.TestName = b.1 ∧ keptOrder.contains tc.TestName = false := by
  subst hbdef
  by_cases h1 : (pickBest baselineList keptOrder score ("", 0)).2 = 0
  · rw [if_pos h1] at hb ⊢
    rcases pickBest_cases nonBaselineList keptOrder score ("", 0) with h | ⟨tc, htc, heq, hk, _⟩
    · rw [h] at hb
      exact absurd rfl hb
    · exact ⟨tc, Or.inr htc, by rw [heq], hk⟩
  · rw [if_neg h1] at hb ⊢
    rcases pickBest_cases baselineList keptOrder score ("", 0) with h | ⟨tc, htc, heq, hk, _⟩
    · rw [h] at h1
      exact absurd rfl h1
    · exact ⟨tc, Or.inl htc, by rw [heq], hk⟩

/-- The kept list built by the loop stays duplicate-free and draws only from
the candidate lists. -/
theorem selectLoop_invariant (targetFunctions : List String)
    (covByTest : String → Option (List (String × Rat)))
    (baselineList nonBaselineList : List TestCoverage) (threshold : Rat) :
    ∀ (fuel : Nat) (cur : String → Rat) (gaps keptOrder : List String),
      keptOrder.Nodup →
      (∀ t ∈ keptOrder, ∃ tc, (tc ∈ baselineList ∨ tc ∈ nonBaselineList) ∧
        tc.TestName = t) →
      (selectLoop targetFunctions covByTest baselineList nonBaselineList threshold
        fuel cur gaps keptOrder).Nodup ∧
      ∀ t ∈ selectLoop targetFunctions covByTest baselineList nonBaselineList
          threshold fuel cur gaps keptOrder,
        ∃ tc, (tc ∈ baselineList ∨ tc ∈ nonBaselineList) ∧ tc.TestName = t := by
  intro fuel
  induction fuel with
  | zero => intro cur gaps keptOrder h1 h2; exact ⟨h1, h2⟩
  | succ fuel ih =>
    intro cur gaps keptOrder h1 h2
    rw [selectLoop_succ]
    by_cases hgaps : gaps.isEmpty = true
    · rw [if_pos hgaps]
      exact ⟨h1, h2⟩
    · rw [if_neg hgaps]
      dsimp only
      set score := countGapImprovements covByTest gaps cur with hscoredef
      set b := if (pickBest baselineList keptOrder score ("", 0)).2 = 0 then
          pickBest nonBaselineList keptOrder score ("", 0)
        else pickBest baselineList keptOrder score ("", 0) with hbdef
      by_cases hb : b.2 = 0
      · rw [if_pos hb]
        exact ⟨h1, h2⟩
      · rw [if_neg hb]
        obtain ⟨tc, htc, hname, hkc⟩ :=
          selectLoop_pick_facts baselineList nonBaselineList keptOrder score b hbdef hb
        have hnotmem : b.1 ∉ keptOrder := by
          rw [← hname]
          exact contains_false_not_mem hkc
        have hnodup' : (keptOrder ++ [b.1]).Nodup := by
          simp [List.nodup_append, h1, hnotmem]
        have hsub' : ∀ t ∈ keptOrder ++ [b.1],
            ∃ tc', (tc' ∈ baselineList ∨ tc' ∈ nonBaselineList) ∧ tc'.TestName = t := by
          intro t ht
          rcases List.mem_append.mp ht with h | h
          · exact h2 t h
          · rcases List.mem_singleton.mp h with rfl
            exact ⟨tc, htc, hname⟩
        exact ih _ _ _ hnodup' hsub'

theorem length_filter_partition {α : Type} (p : α → Bool) (l : List α) :
    (l.filter p).length + (l.filter (fun a => !p a)).length = l.length := by
  induction l with
  | nil => rfl
  | cons a l ih =>
    cases hp : p a <;> simp [List.filter_cons, hp] <;> omega

/-- Once the loop has more fuel than there are not-yet-kept candidates, more
fuel never changes the result: the Go `for` loop has terminated. -/
theorem selectLoop_fuel_stable (targetFunctions : List String)
    (covByTest : String → Option (List (String × Rat)))
    (baselineList nonBaselineList : List TestCoverage) (threshold : Rat)
    (extra : Nat) :
    ∀ (fuel : Nat) (cur : String → Rat) (gaps keptOrder : List String),
      ((baselineList ++ nonBaselineList).filter
        (fun tc => !keptOrder.contains tc.TestName)).length < fuel →
      selectLoop targetFunctions covByTest baselineList nonBaselineList threshold
          (fuel + extra) cur gaps keptOrder =
        selectLoop targetFunctions covByTest baselineList nonBaselineList threshold
          fuel cur gaps keptOrder := by
  intro fuel
  induction fuel with
  | zero =>
    intro cur gaps keptOrder h
    exact absurd h (Nat.not_lt_zero _)
  | succ fuel ih =>
    intro cur gaps keptOrder hcount
    have hshift : fuel + 1 + extra = (fuel + extra) + 1 := by omega
    rw [hshift, selectLoop_succ, selectLoop_succ]
    by_cases hgaps : gaps.isEmpty = true
    · rw [if_pos hgaps, if_pos hgaps]
    · rw [if_neg hgaps, if_neg hgaps]
      dsimp only
      set score := countGapImprovements covByTest gaps cur with hscoredef
      set b := if (pickBest baselineList keptOrder score ("", 0)).2 = 0 then
          pickBest nonBaselineList keptOrder score ("", 0)
        else pickBest baselineList keptOrder score ("", 0) with hbdef
      by_cases hb : b.2 = 0
      · rw [if_pos hb, if_pos hb]
      · rw [if_neg hb, if_neg hb]
        obtain ⟨tc, htc, hname, hkc⟩ :=
          selectLoop_pick_facts baselineList nonBaselineList keptOrder score b hbdef hb
        apply ih
        have hmem : tc ∈ baselineList ++ nonBaselineList := List.mem_append.mpr htc
        have hfeq : (baselineList ++ nonBaselineList).filter
            (fun tc' => !(keptOrder ++ [b.1]).contains tc'.TestName) =
            ((baselineList ++ nonBaselineList).filter
              (fun tc' => !keptOrder.contains tc'.TestName)).filter
              (fun tc' => !(tc'.TestName == b.1)) := by
          rw [List.filter_filter]
          refine List.filter_congr ?_
          intro tc' _
          rw [contains_append_strings]
          by_cases h2 : tc'.TestName = b.1
          · simp [List.contains_cons, h2]
          · simp [List.contains_cons, h2]
        have hmemf : tc ∈ (baselineList ++ nonBaselineList).filter
            (fun tc' => !keptOrder.contains tc'.TestName) :=
          List.mem_filter.mpr ⟨hmem, by simpa using contains_false_not_mem hkc⟩
        have hlt : (((baselineList ++ nonBaselineList).filter
            (fun tc' => !keptOrder.contains tc'.TestName)).filter
            (fun tc' => !(tc'.TestName == b.1))).length <
            ((baselineList ++ nonBaselineList).filter
              (fun tc' => !keptOrder.contains tc'.TestName)).length :=
          List.length_filter_lt_length_iff_exists.mpr
            ⟨tc, hmemf, by simp [hname]⟩
        rw [hfeq]
        omega

theorem mem_partition_iff (allCoverage : List TestCoverage)
    (baselineTests : String → Bool) (tc : TestCoverage) :
    (tc ∈ allCoverage.filter (fun tc' => baselineTests tc'.TestName) ∨
      tc ∈ allCoverage.filter (fun tc' => !baselineTests tc'.TestName)) ↔
    tc ∈ allCoverage := by
  by_cases h : baselineTests tc.TestName = true
  · simp [List.mem_filter, h]
  · simp only [Bool.not_eq_true] at h
    simp [List.mem_filter, h]

theorem coverageByTest_eq (allCoverage : List TestCoverage)
    (hnd : (allCoverage.map (·.TestName)).Nodup)
    (tc : TestCoverage) (htc : tc ∈ allCoverage) :
    coverageByTest allCoverage tc.TestName = some tc.Coverage := by
  unfold coverageByTest
  have hsome : (allCoverage.reverse.find? (fun tc' => tc'.TestName == tc.TestName)).isSome := by
    rw [List.find?_isSome]
    exact ⟨tc, List.mem_reverse.mpr htc, by simp⟩
  rcases hf : allCoverage.reverse.find? (fun tc' => tc'.TestName == tc.TestName) with _ | x
  · rw [hf] at hsome
    simp at hsome
  · have hxmem : x ∈ allCoverage := List.mem_reverse.mp (List.mem_of_find?_eq_some hf)
    have hxname : x.TestName = tc.TestName := by simpa using List.find?_some hf
    have hxeq : x = tc := List.inj_on_of_nodup_map hnd hxmem htc hxname
    rw [hf, hxeq]
    rfl

/-! ## Theorems for claim C9 -/

/-- C9: `SelectMinimalSet` terminates on every input.  With fuel
`allCoverage.length + 1` the loop has already reached a proper exit — giving
it any amount of extra fuel returns the identical result, because each
committed iteration consumes one not-yet-kept candidate.  Moreover the
returned kept list has no duplicates and mentions only input test names. -/
theorem selectMinimalSet_terminates (allCoverage : List TestCoverage)
    (baselineTests : String → Bool) (targetFunctions : List String)
    (threshold : Rat) :
    (∀ extra : Nat,
      SelectMinimalSetFuel (allCoverage.length + 1 + extra) allCoverage
          baselineTests targetFunctions threshold =
        SelectMinimalSet allCoverage baselineTests targetFunctions threshold) ∧
    (SelectMinimalSet allCoverage baselineTests targetFunctions
      threshold).KeptTests.Nodup ∧
    ∀ t ∈ (SelectMinimalSet allCoverage baselineTests targetFunctions
        threshold).KeptTests,
      t ∈ allCoverage.map (·.TestName) := by
  have hpartlen : (allCoverage.filter (fun tc => baselineTests tc.TestName)).length +
      (allCoverage.filter (fun tc => !baselineTests tc.TestName)).length =
      allCoverage.length := length_filter_partition _ _
  refine ⟨?_, ?_⟩
  · intro extra
    unfold SelectMinimalSet SelectMinimalSetFuel
    by_cases hguard : allCoverage.length = 0 ∨ targetFunctions.length = 0
    · rw [if_pos hguard, if_pos hguard]
    · rw [if_neg hguard, if_neg hguard]
      dsimp only
      have hcond : ((allCoverage.filter (fun tc => baselineTests tc.TestName) ++
            allCoverage.filter (fun tc => !baselineTests tc.TestName)).filter
          (fun tc => !([] : List String).contains tc.TestName)).length <
          allCoverage.length + 1 := by
        have hfeq : (allCoverage.filter (fun tc => baselineTests tc.TestName) ++
            allCoverage.filter (fun tc => !baselineTests tc.TestName)).filter
            (fun tc => !([] : List String).contains tc.TestName) =
            allCoverage.filter (fun tc => baselineTests tc.TestName) ++
              allCoverage.filter (fun tc => !baselineTests tc.TestName) := by
          simp
        rw [hfeq, List.length_append]
        omega
      rw [selectLoop_fuel_stable targetFunctions (coverageByTest allCoverage)
        (allCoverage.filter (fun tc => baselineTests tc.TestName))
        (allCoverage.filter (fun tc => !baselineTests tc.TestName)) threshold
        extra (allCoverage.length + 1) (fun _ => 0) targetFunctions [] hcond]
  · unfold SelectMinimalSet SelectMinimalSetFuel
    by_cases hguard : allCoverage.length = 0 ∨ targetFunctions.length = 0
    · rw [if_pos hguard]
      exact ⟨List.nodup_nil, fun t ht => absurd ht (List.not_mem_nil t)⟩
    · rw [if_neg hguard]
      dsimp only
      obtain ⟨hnodup, hsub⟩ := selectLoop_invariant targetFunctions
        (coverageByTest allCoverage)
        (allCoverage.filter (fun tc => baselineTests tc.TestName))
        (allCoverage.filter (fun tc => !baselineTests tc.TestName)) threshold
        (allCoverage.length + 1) (fun _ => 0) targetFunctions []
        List.nodup_nil (fun t ht => absurd ht (List.not_mem_nil t))
      refine ⟨hnodup, ?_⟩
      intro t ht
      obtain ⟨tc, htc, hname⟩ := hsub t ht
      exact List.mem_map.mpr
        ⟨tc, (mem_partition_iff allCoverage baselineTests tc).mp htc, hname⟩

/-! ## Theorems for claim C1 -/

/-- Counterexample to C1 as stated: with one candidate test and an empty
target set, the early return yields two empty lists, so the input test name
appears in neither `KeptTests` nor `RedundantTests` (the claim demanded it
appear in `RedundantTests`). -/
theorem selectMinimalSet_empty_targets_counterexample :
    "T" ∈ ([⟨"T", [("f1", 100)]⟩] : List TestCoverage).map (·.TestName) ∧
    "T" ∉ (SelectMinimalSet [⟨"T", [("f1", 100)]⟩] (fun _ => false)
      [] 80).KeptTests ∧
    "T" ∉ (SelectMinimalSet [⟨"T", [("f1", 100)]⟩] (fun _ => false)
      [] 80).RedundantTests := by
  refine ⟨by decide, ?_, ?_⟩ <;> decide

/-- C1 (amended): with distinct test names and a NON-EMPTY target set, every
input test name appears in exactly one of the two result lists (each list is
duplicate-free and membership is exclusive); when the candidate list or the
target set is empty, the function returns two empty lists — it does not
list the candidates as redundant — and, being total, no error occurs. -/
theorem selectMinimalSet_partition (allCoverage : List TestCoverage)
    (baselineTests : String → Bool) (targetFunctions : List String)
    (threshold : Rat)
    (hnd : (allCoverage.map (·.TestName)).Nodup) :
    (targetFunctions ≠ [] →
      ∀ name ∈ allCoverage.map (·.TestName),
        (name ∈ (SelectMinimalSet allCoverage baselineTests targetFunctions
            threshold).KeptTests ∧
         name ∉ (SelectMinimalSet allCoverage baselineTests targetFunctions
            threshold).RedundantTests) ∨
        (name ∉ (SelectMinimalSet allCoverage baselineTests targetFunctions
            threshold).KeptTests ∧
         name ∈ (SelectMinimalSet allCoverage baselineTests targetFunctions
            threshold).RedundantTests)) ∧
    (SelectMinimalSet allCoverage baselineTests targetFunctions
      threshold).KeptTests.Nodup ∧
    (SelectMinimalSet allCoverage baselineTests targetFunctions
      threshold).RedundantTests.Nodup ∧
    ((allCoverage = [] ∨ targetFunctions = []) →
      SelectMinimalSet allCoverage baselineTests targetFunctions threshold =
        ⟨[], []⟩) := by
  unfold SelectMinimalSet SelectMinimalSetFuel
  by_cases hguard : allCoverage.length = 0 ∨ targetFunctions.length = 0
  · rw [if_pos hguard]
    refine ⟨?_, List.nodup_nil, List.nodup_nil, fun _ => rfl⟩
    intro htargets name hname
    rcases hguard with h | h
    · rw [List.length_eq_zero.mp h] at hname
      exact absurd hname (List.not_mem_nil name)
    · exact absurd (List.length_eq_zero.mp h) htargets
  · rw [if_neg hguard]
    dsimp only
    set K := selectLoop targetFunctions (coverageByTest allCoverage)
      (allCoverage.filter (fun tc => baselineTests tc.TestName))
      (allCoverage.filter (fun tc => !baselineTests tc.TestName)) threshold
      (allCoverage.length + 1) (fun _ => 0) targetFunctions [] with hK
    obtain ⟨hnodup, _⟩ := selectLoop_invariant targetFunctions
      (coverageByTest allCoverage)
      (allCoverage.filter (fun tc => baselineTests tc.TestName))
      (allCoverage.filter (fun tc => !baselineTests tc.TestName)) threshold
      (allCoverage.length + 1) (fun _ => 0) targetFunctions []
      List.nodup_nil (fun t ht => absurd ht (List.not_mem_nil t))
    refine ⟨?_, by rw [hK]; exact hnodup, ?_, ?_⟩
    · intro htargets name hname
      obtain ⟨tc0, htc0, hname0⟩ := List.mem_map.mp hname
      by_cases hk : name ∈ K
      · left
        refine ⟨hk, ?_⟩
        intro hred
        obtain ⟨tc', htc', hname'⟩ := List.mem_map.mp hred
        obtain ⟨_, hcf⟩ := List.mem_filter.mp htc'
        have : tc'.TestName ∉ K := by
          simpa using hcf
        rw [hname'] at this
        exact this hk
      · right
        refine ⟨hk, ?_⟩
        refine List.mem_map.mpr ⟨tc0, List.mem_filter.mpr ⟨htc0, ?_⟩, hname0⟩
        rw [hname0]
        simpa using hk
    · have hsubl : ((allCoverage.filter
          (fun tc => !K.contains tc.TestName)).map (·.TestName)).Sublist
          (allCoverage.map (·.TestName)) :=
        (List.filter_sublist allCoverage).map _
      exact List.Nodup.sublist hsubl hnd
    · intro h
      exfalso
      rcases h with h | h
      · exact hguard (Or.inl (by rw [h]; rfl))
      · exact hguard (Or.inr (by rw [h]; rfl))

/-- Witness for C1: the partition property exercised on a concrete input
with distinct names and a non-empty target set. -/
theorem selectMinimalSet_partition_witness :
    ("TestA" ∈ (SelectMinimalSet [⟨"TestA", [("f1", 100)]⟩, ⟨"TestB", [("f2", 30)]⟩]
        (fun _ => false) ["f1"] 80).KeptTests ∧
     "TestA" ∉ (SelectMinimalSet [⟨"TestA", [("f1", 100)]⟩, ⟨"TestB", [("f2", 30)]⟩]
        (fun _ => false) ["f1"] 80).RedundantTests) ∨
    ("TestA" ∉ (SelectMinimalSet [⟨"TestA", [("f1", 100)]⟩, ⟨"TestB", [("f2", 30)]⟩]
        (fun _ => false) ["f1"] 80).KeptTests ∧
     "TestA" ∈ (SelectMinimalSet [⟨"TestA", [("f1", 100)]⟩, ⟨"TestB", [("f2", 30)]⟩]
        (fun _ => false) ["f1"] 80).RedundantTests) :=
  (selectMinimalSet_partition
      [⟨"TestA", [("f1", 100)]⟩, ⟨"TestB", [("f2", 30)]⟩]
      (fun _ => false) ["f1"] 80 (by decide)).1
    (by decide) "TestA" (by decide)

/-! ## Theorems for claim C2 -/

/-- C2: on the concrete scenario — two tests with identical full coverage of
the single target, empty baseline, threshold 80 — exactly one test is kept
and one is redundant, and the kept one is deterministically `TestA`, the
first by discovery order, because the scan replaces the best candidate only
on a strictly greater improvement count. -/
theorem selectMinimalSet_tie_first_discovered :
    SelectMinimalSet [⟨"TestA", [("f1", 100)]⟩, ⟨"TestB", [("f1", 100)]⟩]
        (fun _ => false) ["f1"] 80 =
      ⟨["TestA"], ["TestB"]⟩ ∧
    (SelectMinimalSet [⟨"TestA", [("f1", 100)]⟩, ⟨"TestB", [("f1", 100)]⟩]
        (fun _ => false) ["f1"] 80).KeptTests.length = 1 ∧
    (SelectMinimalSet [⟨"TestA", [("f1", 100)]⟩, ⟨"TestB", [("f1", 100)]⟩]
        (fun _ => false) ["f1"] 80).RedundantTests.length = 1 := by
  refine ⟨?_, ?_, ?_⟩ <;> decide

/-! ## Theorems for claim C3 -/

/-- Counterexample to C3 as stated: `TB` is a baseline test with a non-empty
coverage map distinct from the other test's coverage, yet it is not kept —
its coverage does not touch the target function, so the selector keeps only
`TO`.  The code prefers baseline tests but never guarantees retention. -/
theorem baseline_not_kept_counterexample :
    (fun n => n == "TB") ("TB" : String) = true ∧
    ([("f2", (50 : Rat))] : List (String × Rat)) ≠ [] ∧
    ([("f2", (50 : Rat))] : List (String × Rat)) ≠ [("f1", (100 : Rat))] ∧
    (SelectMinimalSet [⟨"TB", [("f2", 50)]⟩, ⟨"TO", [("f1", 100)]⟩]
        (fun n => n == "TB") ["f1"] 80).KeptTests = ["TO"] ∧
    "TB" ∉ (SelectMinimalSet [⟨"TB", [("f2", 50)]⟩, ⟨"TO", [("f1", 100)]⟩]
        (fun n => n == "TB") ["f1"] 80).KeptTests := by
  refine ⟨?_, ?_, ?_, ?_, ?_⟩ <;> decide

/-- A test whose coverage strictly improves some remaining gap scores at
least 1. -/
theorem countGapImprovements_pos (covByTest : String → Option (List (String × Rat)))
    (gaps : List String) (cur : String → Rat) (testName : String)
    (cov : List (String × Rat)) (fn : String) (v : Rat)
    (hc : covByTest testName = some cov) (hfn : fn ∈ gaps)
    (hv : lookupCov cov fn = some v) (hlt : cur fn < v) :
    1 ≤ countGapImprovements covByTest gaps cur testName := by
  unfold countGapImprovements
  rw [hc]
  have hmemf : fn ∈ gaps.filter (fun fn' =>
      match lookupCov cov fn' with
      | some newCov => decide (cur fn' < newCov)
      | none => false) := by
    refine List.mem_filter.mpr ⟨hfn, ?_⟩
    simp [hv, hlt]
  exact List.length_pos.mpr (List.ne_nil_of_mem hmemf)

/-- C3 (amended): the guarantee the code actually gives is baseline
preference, not per-test retention — whenever some baseline test's coverage
assigns a strictly positive percentage to some target function (and test
names are distinct), `KeptTests` is non-empty and its FIRST element is a
baseline test, because the baseline scan runs before the non-baseline scan
in every iteration. -/
theorem selectMinimalSet_baseline_first (allCoverage : List TestCoverage)
    (baselineTests : String → Bool) (targetFunctions : List String)
    (threshold : Rat)
    (hnd : (allCoverage.map (·.TestName)).Nodup)
    (tc : TestCoverage) (htc : tc ∈ allCoverage)
    (hbase : baselineTests tc.TestName = true)
    (fn : String) (hfn : fn ∈ targetFunctions)
    (v : Rat) (hv : lookupCov tc.Coverage fn = some v) (hpos : 0 < v) :
    ∃ t, (SelectMinimalSet allCoverage baselineTests targetFunctions
        threshold).KeptTests.head? = some t ∧
      baselineTests t = true := by
  have hguard : ¬(allCoverage.length = 0 ∨ targetFunctions.length = 0) := by
    push_neg
    exact ⟨(List.length_pos.mpr (List.ne_nil_of_mem htc)).ne',
      (List.length_pos.mpr (List.ne_nil_of_mem hfn)).ne'⟩
  unfold SelectMinimalSet SelectMinimalSetFuel
  rw [if_neg hguard]
  dsimp only
  have hgaps : targetFunctions.isEmpty = false := by
    rcases targetFunctions with _ | ⟨g, gs⟩
    · exact absurd hfn (List.not_mem_nil fn)
    · rfl
  rw [selectLoop_succ, if_neg (by simp [hgaps])]
  dsimp only
  set score := countGapImprovements (coverageByTest allCoverage) targetFunctions
    (fun _ => 0) with hscoredef
  have htcb : tc ∈ allCoverage.filter (fun tc' => baselineTests tc'.TestName) :=
    List.mem_filter.mpr ⟨htc, hbase⟩
  have hcbt : coverageByTest allCoverage tc.TestName = some tc.Coverage :=
    coverageByTest_eq allCoverage hnd tc htc
  have hscore1 : 1 ≤ score tc.TestName := by
    rw [hscoredef]
    exact countGapImprovements_pos (coverageByTest allCoverage) targetFunctions
      (fun _ => 0) tc.TestName tc.Coverage fn v hcbt hfn hv hpos
  have hb1ge : 1 ≤ (pickBest
      (allCoverage.filter (fun tc' => baselineTests tc'.TestName)) [] score
      ("", 0)).2 :=
    le_trans hscore1 (pickBest_ge_score [] score tc _ htcb rfl ("", 0))
  have hb1ne : ¬ (pickBest
      (allCoverage.filter (fun tc' => baselineTests tc'.TestName)) [] score
      ("", 0)).2 = 0 := by omega
  rw [if_neg hb1ne, if_neg hb1ne]
  obtain ⟨ext, hext⟩ := selectLoop_prefix targetFunctions
    (coverageByTest allCoverage)
    (allCoverage.filter (fun tc' => baselineTests tc'.TestName))
    (allCoverage.filter (fun tc' => !baselineTests tc'.TestName)) threshold
    allCoverage.length _ _ _
  rw [hext]
  rcases pickBest_cases (allCoverage.filter (fun tc' => baselineTests tc'.TestName))
      [] score ("", 0) with h | ⟨tcw, htcw, heq, _, _⟩
  · rw [h] at hb1ne
    exact absurd rfl hb1ne
  · refine ⟨tcw.TestName, ?_, (List.mem_filter.mp htcw).2⟩
    rw [heq]
    rfl

/-- Witness for C3 (amended): with baseline `TB` positively covering the
target, the first kept test is a baseline test. -/
theorem selectMinimalSet_baseline_first_witness :
    ∃ t, (SelectMinimalSet [⟨"TB", [("f1", 100)]⟩, ⟨"TO", [("f1", 100)]⟩]
        (fun n => n == "TB") ["f1"] 80).KeptTests.head? = some t ∧
      (fun n => n == "TB") t = true :=
  selectMinimalSet_baseline_first
    [⟨"TB", [("f1", 100)]⟩, ⟨"TO", [("f1", 100)]⟩] (fun n => n == "TB")
    ["f1"] 80 (by decide) ⟨"TB", [("f1", 100)]⟩ (by decide) (by decide)
    "f1" (by decide) 100 (by decide) (by decide)

end TestRedundancy
